import Mathlib

/-!
Shallow embedding of the transaction-scheduling core of the repository
(`src/solution.py`, `src/utils.py`, `src/task.py`, `src/transformation.py`,
`src/variable_representation.py`, `src/qubo.py`).

Python floats are modelled as rationals (`ℚ`); numpy integer matrices as
`List (List ℤ)`.  Python list indexing is modelled with `getD` (with a note
wherever the source would raise `IndexError` out of range); code that raises
exceptions on the inputs of interest is modelled with `Except String`.
-/

namespace TSQ

/-- `TransactionSolution` (src/solution.py, lines 8-21): one placed
transaction with its half-open execution window. -/
structure TransactionSolution where
  id : ℕ
  start_time : ℚ
  end_time : ℚ
  duration : ℚ
deriving DecidableEq, Repr, Inhabited

/-- `MachineSolution` (src/solution.py, lines 24-31): the ordered list of
transactions placed on one machine. -/
structure MachineSolution where
  transactions : List TransactionSolution
deriving DecidableEq, Repr, Inhabited

/-- `MachineSolution.processing_time` (src/solution.py, lines 33-45): end
time of the last placed transaction, or 0 for an empty track. -/
def MachineSolution.processing_time (m : MachineSolution) : ℚ :=
  match m.transactions.getLast? with
  | none => 0
  | some t => t.end_time

/-- `Solution` (src/solution.py, lines 48-61): one machine track per
machine. -/
structure Solution where
  machines : List MachineSolution
deriving DecidableEq, Repr, Inhabited

/-- Conflict-matrix lookup `conflicts[i][j]` (total, default 0; the source
raises `IndexError` out of range, every use below is in range). -/
def conflictAt (conflicts : List (List ℤ)) (i j : ℕ) : ℤ :=
  (conflicts.getD i []).getD j 0

/-- The loop body of `build_transaction_solution` (src/utils.py, lines
34-45): scan one already-placed transaction `omt` of another machine and
push `earliest_possible` forward when the source's (closed-inequality)
condition holds. -/
def pushEarliest (conflicts : List (List ℤ)) (transaction_id : ℕ)
    (duration : ℚ) (e : ℚ) (omt : TransactionSolution) : ℚ :=
  if 0 < conflictAt conflicts omt.id transaction_id ∧
      omt.start_time ≤ e + duration ∧ e ≤ omt.end_time then
    max omt.end_time e
  else
    e

/-- The full scan of `build_transaction_solution` over the other machines
(src/utils.py, lines 34-45), folding `pushEarliest` in source iteration
order. -/
def earliestPossible (others : List MachineSolution)
    (transaction_id : ℕ) (duration : ℚ) (conflicts : List (List ℤ))
    (init : ℚ) : ℚ :=
  others.foldl
    (fun e m => m.transactions.foldl
      (pushEarliest conflicts transaction_id duration) e)
    init

/-- `build_transaction_solution` (src/utils.py, lines 7-52): append one new
`TransactionSolution` to `machine`.  `others` is the list of all machines
except `machine` itself (the source skips `machine` by object identity,
which is the position of `machine` in the machine list). -/
def build_transaction_solution (machine : MachineSolution)
    (others : List MachineSolution) (transaction_id : ℕ) (duration : ℚ)
    (conflicts : List (List ℤ)) : MachineSolution :=
  let earliest := earliestPossible others transaction_id duration conflicts
    machine.processing_time
  ⟨machine.transactions ++
    [⟨transaction_id, earliest, earliest + duration, duration⟩]⟩

/-- `TransactionScheduleTask` (src/task.py, lines 9-26); the unused `id`
and `solution` fields are omitted. -/
structure TransactionScheduleTask where
  num_machines : ℕ
  lengths : List ℚ
  conflicts : List (List ℤ)
deriving DecidableEq, Repr, Inhabited

/-- `TransactionScheduleTask.num_transactions` (src/task.py, lines 28-35). -/
def TransactionScheduleTask.num_transactions
    (t : TransactionScheduleTask) : ℕ :=
  t.lengths.length

/-- Index of the first element attaining the minimum of a list of rationals:
the value position returned by Python's `min`, which keeps the earliest
element among ties. -/
def idxMin : List ℚ → ℕ
  | [] => 0
  | x :: xs =>
    match xs with
    | [] => 0
    | _ :: _ =>
      let j := idxMin xs
      if xs.getD j 0 < x then j + 1 else 0

/-- Index of the first element equal to `a`: Python's `list.index`, which
compares dataclasses by value. -/
def idxOfFirstEq (l : List MachineSolution) (a : MachineSolution) : ℕ :=
  match l with
  | [] => 0
  | x :: xs => if x = a then 0 else idxOfFirstEq xs a + 1

/-- One iteration of the loop of `solution_order_to_solution` (src/task.py,
lines 93-104): pick the machine with the smallest processing time (Python's
`min`, first among ties) and append the transaction to it via
`build_transaction_solution`. -/
def scheduleStep (task : TransactionScheduleTask)
    (machines : List MachineSolution) (transaction_id : ℕ) :
    List MachineSolution :=
  let i := idxMin (machines.map MachineSolution.processing_time)
  let machine := machines.getD i default
  let duration := task.lengths.getD transaction_id 0
  machines.set i
    (build_transaction_solution machine (machines.eraseIdx i)
      transaction_id duration task.conflicts)

/-- `TransactionScheduleTask.solution_order_to_solution` (src/task.py,
lines 78-106): fold the placement step over the processing order, starting
from `num_machines` empty tracks. -/
def solution_order_to_solution (task : TransactionScheduleTask)
    (solution_order : List ℕ) : Solution :=
  ⟨solution_order.foldl (scheduleStep task)
    (List.replicate task.num_machines ⟨[]⟩)⟩

/-- `Solution.length` (src/solution.py, lines 63-78): maximum end time over
all placed transactions.  Python's `max` raises `ValueError` on an empty
list, modelled as `none`. -/
def Solution.length? (s : Solution) : Option ℚ :=
  ((s.machines.map (fun m => m.transactions.map (fun t => t.end_time))).flatten).max?

/-- One iteration state of `Solution.solution_to_solution_order`
(src/solution.py, lines 110-127): the virtual replay machines, the
per-original-machine consumption index (`index_tracker`), and the order
accumulated so far. -/
structure ReplayState where
  machines : List MachineSolution
  tracker : List ℕ
  order : List ℕ
deriving DecidableEq, Repr

/-- One iteration of the replay loop of `solution_to_solution_order`
(src/solution.py, lines 116-127).  `min` returns the first machine with
minimal processing time (its position is `p`); `machines.index` finds the
first machine equal by value (`machine_id`); the transaction is read from
the original machine `machine_id` at the consumption index (in range for
every replay performed below; out-of-range reads, which raise in the
source, are modelled with `getD`). -/
def replayStep (orig : List MachineSolution) (st : ReplayState) :
    ReplayState :=
  let p := idxMin (st.machines.map MachineSolution.processing_time)
  let machine := st.machines.getD p default
  let machine_id := idxOfFirstEq st.machines machine
  let t_idx := st.tracker.getD machine_id 0
  let transaction :=
    ((orig.getD machine_id default).transactions).getD t_idx default
  { machines := st.machines.set p ⟨machine.transactions ++ [transaction]⟩
    tracker := st.tracker.set machine_id (t_idx + 1)
    order := st.order ++ [transaction.id] }

/-- `Solution.solution_to_solution_order` (src/solution.py, lines 101-128):
replay the schedule through virtual machines, emitting transaction ids in
the order the replay consumes them. -/
def Solution.solution_to_solution_order (s : Solution) : List ℕ :=
  let num_transactions := (s.machines.map (fun m => m.transactions.length)).sum
  (Nat.iterate (replayStep s.machines) num_transactions
    ⟨List.replicate s.machines.length ⟨[]⟩,
     List.replicate s.machines.length 0, []⟩).order

/-- `VariableRepresentation` (src/variable_representation.py, lines 3-14).
Fields are integers as parsed (the 1-based to 0-based shift can produce
`-1`). -/
structure VariableRepresentation where
  transaction_id : ℤ
  machine_id : ℤ
  start_time : ℤ
deriving DecidableEq, Repr, Inhabited

/-- Python's `str.split` on a single separator character: every occurrence
of the separator starts a new field, adjacent separators produce empty
fields, and the empty string yields one empty field. -/
def splitOnChar (c : Char) : List Char → List (List Char)
  | [] => [[]]
  | x :: xs =>
    let r := splitOnChar c xs
    if x = c then [] :: r
    else
      match r with
      | [] => [[x]]
      | h :: t => (x :: h) :: t

/-- `input.split('-')` as used by `from_string`
(src/variable_representation.py, line 31). -/
def pySplitDash (s : String) : List String :=
  (splitOnChar '-' s.toList).map (fun l => String.mk l)

/-- The value of a non-empty all-digit character sequence, `none`
otherwise. -/
def digitsVal? : List Char → Option ℕ
  | [] => none
  | l =>
    if l.all (fun c => c.isDigit) then
      some (l.foldl (fun acc c => 10 * acc + (c.toNat - 48)) 0)
    else none

/-- Python's `int(str)`: an optional sign followed by at least one decimal
digit (the whitespace and underscore forms Python also tolerates never
occur in variable names and are not modelled); `none` models the
`ValueError` raised on anything else. -/
def pyInt? (s : String) : Option ℤ :=
  match s.toList with
  | '-' :: rest => (digitsVal? rest).map (fun n => -(n : ℤ))
  | '+' :: rest => (digitsVal? rest).map (fun n => (n : ℤ))
  | l => (digitsVal? l).map (fun n => (n : ℤ))

/-- `VariableRepresentation.from_string` (src/variable_representation.py,
lines 16-36): split on `-`, convert the first three fields with `int`
(failure raises `ValueError`, modelled as `.error`), ignore any further
fields (the source only reads `splits[0]`, `splits[1]`, `splits[2]`);
fewer than three fields raises `IndexError`. -/
def VariableRepresentation.from_string (input : String) :
    Except String VariableRepresentation :=
  match pySplitDash input with
  | a :: b :: c :: _ =>
    match pyInt? a, pyInt? b, pyInt? c with
    | some x, some y, some z => .ok ⟨x - 1, y - 1, z⟩
    | _, _, _ => .error "invalid literal for int"
  | _ => .error "list index out of range"

/-- Python list indexing semantics: a non-negative index must be below the
length, a negative index wraps around from the end; `none` models
`IndexError`. -/
def pyIdx (len : ℕ) (i : ℤ) : Option ℕ :=
  if 0 ≤ i then
    if i.toNat < len then some i.toNat else none
  else
    let j := (len : ℤ) + i
    if 0 ≤ j then some j.toNat else none

/-- The loop of `binary_variables_to_solution` (src/transformation.py,
lines 21-35), run `task.num_transactions` times.  Each iteration selects
the machine with smallest processing time (`min`, then `machines.index` by
value), pops the LAST element of that machine's variable group
(`list.pop()` with no argument removes the last element; popping an empty
group raises `IndexError`), looks the duration up by the parsed
(1-based-shifted) transaction id with Python indexing semantics, and places
the transaction via `build_transaction_solution`. -/
def decodeLoop (task : TransactionScheduleTask) :
    ℕ → List MachineSolution → List (List VariableRepresentation) →
    Except String (List MachineSolution)
  | 0, machines, _ => .ok machines
  | fuel + 1, machines, groups =>
    let i := idxMin (machines.map MachineSolution.processing_time)
    let machine := machines.getD i default
    let machine_id := idxOfFirstEq machines machine
    let g := groups.getD machine_id []
    match g.getLast? with
    | none => .error "pop from empty list"
    | some transaction_var =>
      match pyIdx task.lengths.length transaction_var.transaction_id with
      | none => .error "index out of range"
      | some transaction_id =>
        let duration := task.lengths.getD transaction_id 0
        decodeLoop task fuel
          (machines.set i
            (build_transaction_solution machine (machines.eraseIdx i)
              transaction_id duration task.conflicts))
          (groups.set machine_id g.dropLast)

/-- `binary_variables_to_solution` (src/transformation.py, lines 9-37):
parse every variable name (the first parse failure aborts the decode),
group the parsed triples by machine id in input order, then run the
placement loop.  NOTE (faithful to the source): the dict comprehension at
src/transformation.py lines 18-19 builds sorted copies of the groups but
DISCARDS the result, so the groups really stay in input (insertion) order;
groups keyed by a machine id outside `0 ≤ id < num_machines` are never
popped and are dropped here. -/
def binary_variables_to_solution (vars : List String)
    (task : TransactionScheduleTask) : Except String Solution := do
  let representations ← vars.mapM VariableRepresentation.from_string
  let groups := (List.range task.num_machines).map
    (fun j => representations.filter (fun r => r.machine_id = (j : ℤ)))
  let machines ← decodeLoop task task.num_transactions
    (List.replicate task.num_machines ⟨[]⟩) groups
  return ⟨machines⟩

/-- `TransactionScheduleTask.estimate_execution_time` (src/task.py, lines
55-76): `max(sum(lengths)/num_machines, max(lengths))`.  `max` of an empty
numpy array raises (checked by the caller below); division by
`num_machines = 0` yields numpy `inf` in the source, reachable only on the
error path of `build_discrete_qubo` below. -/
def estimate_execution_time (lengths : List ℚ) (num_machines : ℕ) : ℚ :=
  max (lengths.sum / (num_machines : ℚ)) ((lengths.max?).getD 0)

/-- The integers `a, a+1, ..., b-1`: Python's `range(a, b)`. -/
def intRange (a b : ℤ) : List ℤ :=
  (List.range (b - a).toNat).map (fun k => a + (k : ℤ))

/-- The variable name built by `b_var` (src/qubo.py, lines 70-71):
`"<transaction>-<machine>-<time>"`. -/
def bVarName (transaction machine time : ℤ) : String :=
  toString transaction ++ "-" ++ toString machine ++ "-" ++ toString time

/-- The Hamiltonian assembled by `build_discrete_qubo` (src/qubo.py, lines
53-142), kept as its four symbolic term families (one one-hot variable
group per transaction for `A`, the quadratic variable pairs of `B` and `C`,
and the weighted linear terms of `D`); the algebraic expansion performed by
the external `pyqubo` compiler is outside the embedded code. -/
structure DiscreteQubo where
  discrete_lengths : List ℤ
  discrete_execution_length : ℤ
  max_start_times : List ℤ
  aGroups : List (List String)
  bTerms : List (String × String)
  cTerms : List (String × String)
  dTerms : List (String × ℚ)
deriving DecidableEq, Repr

/-- Lexicographic order on index pairs, as `Bool` (the row order produced
by `np.unique(..., axis=0)`). -/
def pairLe (p q : ℕ × ℕ) : Bool :=
  decide (p.1 < q.1) || (decide (p.1 = q.1) && decide (p.2 ≤ q.2))

/-- Insert a pair into a `pairLe`-sorted list, keeping it sorted. -/
def insertPairSorted (p : ℕ × ℕ) : List (ℕ × ℕ) → List (ℕ × ℕ)
  | [] => [p]
  | q :: t => if pairLe p q then p :: q :: t else q :: insertPairSorted p t

/-- Sort index pairs lexicographically (insertion sort; models the sorted
row order of `np.unique(..., axis=0)`). -/
def sortPairs (l : List (ℕ × ℕ)) : List (ℕ × ℕ) :=
  l.foldr insertPairSorted []

/-- Lines 105-107 of src/qubo.py: collect the (row, column) positions of
every entry equal to 1 of the conflict matrix, sort each pair, and take the
sorted unique pairs (`np.unique(..., axis=0)` returns them in lexicographic
order), still 0-based here (the source adds 1 to both components and the
loop subtracts it back at every use). -/
def uniqueConflictPairs (conflicts : List (List ℤ)) : List (ℕ × ℕ) :=
  (sortPairs ((List.range conflicts.length).flatMap (fun i =>
    (List.range (conflicts.getD i []).length).flatMap (fun j =>
      if (conflicts.getD i []).getD j 0 = 1 then
        [(min i j, max i j)]
      else [])))).dedup

/-- The conflict-term loop of `build_discrete_qubo` (src/qubo.py, lines
109-119) indexes `max_start_times[t_idx_a-1]` (line 111) and
`discrete_lengths[t_idx_b-1]` / `max_start_times[t_idx_b-1]` (lines
115-118) by the 1-based conflict pair (a, b), a ≤ b; these raise
`IndexError` when the conflict matrix flags a transaction index not below
`num_transactions`: the smaller index is evaluated in the `start_times`
call for every machine (so it raises whenever `num_machines ≥ 1`), while
the larger one is only reached inside the distinct-machine inner loop,
which requires `num_machines ≥ 2` (with one machine every iteration hits
`continue` first; the `start_times` range of an in-range transaction is
never empty because `max_start_times ≥ 0`). -/
def conflictIndexOutOfRange (task : TransactionScheduleTask) : Bool :=
  (uniqueConflictPairs task.conflicts).any (fun ab =>
    task.num_transactions ≤ ab.1 ∨
      (task.num_transactions ≤ ab.2 ∧ 2 ≤ task.num_machines))

/-- `build_discrete_qubo` (src/qubo.py, lines 9-144) with an explicit
`time_step_length` (when the caller passes none, the source derives it as
`estimate_execution_time() / number_time_steps`, default 10).  The function
performs no input validation; the only failures it can hit are
  - `max` of the empty discrete-length array inside
    `estimate_execution_time` when `lengths` is empty (line 61),
  - `IndexError` in the conflict-term loop when the conflict matrix flags
    a transaction index not below `num_transactions` (lines 111-118, see
    `conflictIndexOutOfRange`; only reachable when `num_machines ≥ 1`,
    since with no machines the loop over `machine_idxs` is empty), and
  - when `num_machines < 1` every loop over machines is empty, the summed
    Hamiltonian is the plain number `A = num_transactions`, and calling
    `.compile()` on it fails (line 143);
all are modelled as `.error`.  Divisions here are exact rational
arithmetic; `time_step_length ≠ 0` is assumed (a zero step produces numpy
infinities in the source, never an exception on entry). -/
def build_discrete_qubo (task : TransactionScheduleTask)
    (time_step_length : ℚ) : Except String DiscreteQubo :=
  if task.lengths.isEmpty then
    .error "zero-size array to reduction operation"
  else
    -- 0. Discretize (lines 59-67).
    let dl := task.lengths.map (fun l => ⌈l / time_step_length⌉)
    let dexec := ⌈estimate_execution_time (dl.map (fun z => (z : ℚ)))
      task.num_machines⌉
    let mst := dl.map (fun d => dexec - d)
    let tIdxs := intRange 1 ((task.num_transactions : ℤ) + 1)
    let mIdxs := intRange 1 ((task.num_machines : ℤ) + 1)
    let starts := fun (t : ℤ) => intRange 0 (mst.getD (t - 1).toNat 0 + 1)
    let dlAt := fun (t : ℤ) => dl.getD (t - 1).toNat 0
    let mstAt := fun (t : ℤ) => mst.getD (t - 1).toNat 0
    -- 1.1 Each transaction starts exactly once (lines 74-80).
    let aGroups := tIdxs.map (fun t =>
      mIdxs.flatMap (fun m => (starts t).map (fun st => bVarName t m st)))
    -- 1.2 No two transactions at the same time on one machine (lines 83-101).
    let bTerms := mIdxs.flatMap (fun m =>
      tIdxs.dropLast.flatMap (fun t =>
        (starts t).flatMap (fun st =>
          (tIdxs.drop t.toNat).flatMap (fun rt =>
            let q := max 0 (st - dlAt rt + 1)
            let p := min (st + dlAt t - 1) (mstAt rt)
            (intRange q (p + 1)).map (fun ist =>
              (bVarName t m st, bVarName rt m ist))))))
    -- 1.3 Conflicting transactions never overlap (lines 104-129).
    let uniquePairs := uniqueConflictPairs task.conflicts
    let cTerms := uniquePairs.flatMap (fun ab =>
      let a := (ab.1 : ℤ) + 1
      let b := (ab.2 : ℤ) + 1
      mIdxs.flatMap (fun m =>
        (starts a).flatMap (fun st =>
          mIdxs.flatMap (fun rm =>
            if rm = m then []
            else
              let q := max 0 (st - dlAt b + 1)
              let p := min (st + dlAt a - 1) (mstAt b)
              (intRange q (p + 1)).map (fun ist =>
                (bVarName a m st, bVarName b rm ist))))))
    -- 1.4 Prefer earlier completion (lines 132-140).
    let machines := (task.num_machines : ℚ) + 1
    let dTerms := tIdxs.flatMap (fun t =>
      mIdxs.flatMap (fun m =>
        (starts t).map (fun st =>
          (bVarName t m st,
            machines ^ (st + dlAt t - 1) / machines ^ dexec))))
    if 1 ≤ task.num_machines ∧ conflictIndexOutOfRange task = true then
      .error "index out of range in the conflict term"
    else if task.num_machines < 1 then
      .error "the constant Hamiltonian cannot be compiled"
    else
      .ok ⟨dl, dexec, mst, aGroups, bTerms, cTerms, dTerms⟩

/-- Two placed transactions have overlapping half-open `[start, end)`
windows. -/
def windowsOverlap (a b : TransactionSolution) : Prop :=
  max a.start_time b.start_time < min a.end_time b.end_time

instance (a b : TransactionSolution) : Decidable (windowsOverlap a b) := by
  unfold windowsOverlap; infer_instance

/-- A well-formed 4-machine, 4-transaction task (positive lengths,
symmetric 0/1 conflict matrix): transactions 0 and 1 conflict, 1 and 3
conflict, 2 and 3 conflict. -/
def taskA : TransactionScheduleTask :=
  ⟨4, [3, 2, 4, 1],
   [[0, 1, 0, 0], [1, 0, 0, 1], [0, 0, 0, 1], [0, 1, 1, 0]]⟩

/-- A 1-machine, 2-transaction task with no conflicts, used to exercise the
decoder. -/
def taskB : TransactionScheduleTask :=
  ⟨1, [1, 1], [[0, 0], [0, 0]]⟩

instance : Std.Antisymm (fun x1 x2 : ℚ => x1 ≤ x2) where
  antisymm h h' := le_antisymm h h'

end TSQ

deriving instance DecidableEq for Except

attribute [local semireducible] Rat.add Rat.mul Rat.sub Rat.inv

namespace TSQ

/-- C1: the conflict invariant FAILS on the code.  `taskA` is well formed
(four machines, positive lengths, symmetric 0/1 conflict matrix), yet for
the processing order `[0, 1, 2, 3]` the schedule produced by
`solution_order_to_solution` places the conflicting transactions 1 and 3
(`conflicts[1][3] = 1`) in the overlapping windows `[3, 5)` and `[4, 5)`:
the single forward scan checks machine 1 before machine 2, the push caused
by transaction 2 (window `[0, 4)`) moves the candidate window of
transaction 3 from `[0, 1)` to `[4, 5)`, and machine 1 is never re-checked.
This contradicts the docstring of `build_transaction_solution`
(src/utils.py, lines 15-17: "We ensure that no conflicting transactions run
at the same time"). -/
theorem conflict_invariant_violated :
    1 ≤ taskA.num_machines ∧
    (∀ i < 4, ∀ j < 4,
      conflictAt taskA.conflicts i j = conflictAt taskA.conflicts j i) ∧
    (∀ l ∈ taskA.lengths, 0 < l) ∧
    0 < conflictAt taskA.conflicts 1 3 ∧
    (solution_order_to_solution taskA [0, 1, 2, 3]).machines =
      [⟨[⟨0, 0, 3, 3⟩]⟩, ⟨[⟨1, 3, 5, 2⟩]⟩, ⟨[⟨2, 0, 4, 4⟩]⟩,
       ⟨[⟨3, 4, 5, 1⟩]⟩] ∧
    windowsOverlap ⟨1, 3, 5, 2⟩ ⟨3, 4, 5, 1⟩ := by
  decide

/-- C2: the decoder does NOT consume each machine's group in non-decreasing
start-time order.  For the active variables `["1-1-0", "2-1-5"]` (machine
0 gets transaction 0 at start 0, then transaction 1 at start 5) the decode
loop pops the LAST-inserted variable first — the sorted dict comprehension
at src/transformation.py lines 18-19 discards its result and `list.pop()`
removes the last element — so transaction 1 (parsed start time 5) is placed
before transaction 0 (parsed start time 0). -/
theorem decode_pops_unsorted_group :
    binary_variables_to_solution ["1-1-0", "2-1-5"] taskB =
      .ok ⟨[⟨[⟨1, 0, 1, 1⟩, ⟨0, 1, 2, 1⟩]⟩]⟩ := by
  decide

/-- The input on which the source raises inside the conflict-term loop:
lengths `[1]` (one transaction), a 2x1 conflict matrix whose 1-entry flags
the pair (0, 1), and two machines.  The pair's larger index 1 is not below
`num_transactions = 1`, so `discrete_lengths[1]` at src/qubo.py line 115
raises `IndexError`; the model returns an error accordingly. -/
lemma encoder_conflict_index_raises :
    (build_discrete_qubo ⟨2, [1], [[0], [1]]⟩ 1).isOk = false := by
  decide

/-- C5 counterexample: a conflicting transaction whose window merely ABUTS
the candidate window on the right still causes a push.  Empty target track,
candidate window `[0, 1)`, conflicting placed transaction with window
`[1, 2)` (start exactly at `earliest_possible + duration`): the source's
closed comparisons (`<=`, `>=` at src/utils.py lines 40-41) fire and the
transaction is placed at `[2, 3)` instead of `[0, 1)`. -/
theorem place_pushes_on_abutting_window :
    (build_transaction_solution ⟨[]⟩ [⟨[⟨0, 1, 2, 1⟩]⟩] 1 1
        [[0, 1], [1, 0]]).transactions
      = [⟨1, 2, 3, 1⟩] := by
  decide

/-- C5 amended: `earliest_possible` does start at the target track's last
end time (or 0 when the track is empty), but the push fires under the
CLOSED condition `omt.start_time ≤ e + duration ∧ e ≤ omt.end_time`
(src/utils.py lines 39-41): a placed conflicting transaction abutting the
candidate window on the right (start = e + duration) pushes `e` to its end
time, while one abutting on the left (end = e) satisfies the condition but
leaves `e` unchanged because the push takes `max(end, e) = e`. -/
theorem place_start_rule (machine : MachineSolution)
    (omt : TransactionSolution) (transaction_id : ℕ) (duration : ℚ)
    (conflicts : List (List ℤ)) :
    (build_transaction_solution machine [] transaction_id duration
        conflicts).transactions
      = machine.transactions ++
        [⟨transaction_id, machine.processing_time,
          machine.processing_time + duration, duration⟩] ∧
    (build_transaction_solution ⟨[]⟩ [⟨[omt]⟩] transaction_id duration
        conflicts).transactions
      = (if 0 < conflictAt conflicts omt.id transaction_id ∧
            omt.start_time ≤ duration ∧ 0 ≤ omt.end_time
         then [⟨transaction_id, max omt.end_time 0,
                max omt.end_time 0 + duration, duration⟩]
         else [⟨transaction_id, 0, 0 + duration, duration⟩]) := by
  constructor
  · simp [build_transaction_solution, earliestPossible]
  · simp only [build_transaction_solution, earliestPossible,
      MachineSolution.processing_time, List.foldl, pushEarliest, List.getLast?]
    norm_num
    split <;> simp

/-- C7 counterexample: a variable name with MORE than three fields is
accepted, not rejected: the fourth field of `"1-1-1-1"` is silently
dropped and the triple `(0, 0, 1)` is returned. -/
theorem from_string_accepts_four_fields :
    VariableRepresentation.from_string "1-1-1-1" = .ok ⟨0, 0, 1⟩ := by
  decide

/-- C7 amended: `from_string` fails exactly when the name has fewer than
three `-`-separated fields or one of the FIRST three fields is not an
integer; any fields after the third are silently ignored, so a name with
more than three fields is accepted whenever its first three fields are
integers. -/
theorem from_string_ok_iff (s : String) :
    (∃ r, VariableRepresentation.from_string s = .ok r) ↔
      ∃ a b c rest, pySplitDash s = a :: b :: c :: rest ∧
        (pyInt? a).isSome ∧ (pyInt? b).isSome ∧ (pyInt? c).isSome := by
  unfold VariableRepresentation.from_string
  rcases h : pySplitDash s with _ | ⟨a, _ | ⟨b, _ | ⟨c, rest⟩⟩⟩ <;> simp [h]
  rcases ha : pyInt? a with _ | x <;> rcases hb : pyInt? b with _ | y <;>
    rcases hc : pyInt? c with _ | z <;> simp [ha, hb, hc]
  exact ⟨a, b, c, ⟨rfl, rfl, rfl⟩, by simp [ha], by simp [hb], by simp [hc]⟩

/-- C9: every well-formed three-field variable name parses to the triple
with 1 subtracted from the first two integer fields and the third field
unchanged. -/
theorem from_string_three_fields_spec (s a b c : String) (x y z : ℤ)
    (hsplit : pySplitDash s = [a, b, c])
    (ha : pyInt? a = some x) (hb : pyInt? b = some y)
    (hc : pyInt? c = some z) :
    VariableRepresentation.from_string s = .ok ⟨x - 1, y - 1, z⟩ := by
  unfold VariableRepresentation.from_string
  rw [hsplit]
  simp [ha, hb, hc]

/-- C9 witness: `"3-1-7"` parses to transaction id 2, machine id 0, start
time 7. -/
theorem from_string_three_fields_spec_witness :
    VariableRepresentation.from_string "3-1-7" = .ok ⟨2, 0, 7⟩ := by
  have h := from_string_three_fields_spec "3-1-7" "3" "1" "7" 3 1 7
    (by decide) (by decide) (by decide) (by decide)
  simpa using h

/-- C8: for every positive time step, the discrete length computed by the
encoder (the rounded-up multiple count `ceil(length / time_step_length)`)
never under-estimates the duration: `discrete_length * time_step_length ≥
length` for every transaction. -/
theorem discrete_lengths_never_underestimate
    (task : TransactionScheduleTask) (ts : ℚ) (hts : 0 < ts)
    (q : DiscreteQubo) (hq : build_discrete_qubo task ts = .ok q) (i : ℕ)
    (hi : i < task.lengths.length) :
    task.lengths.getD i 0 ≤ (q.discrete_lengths.getD i 0 : ℚ) * ts := by
  have hdl : q.discrete_lengths = task.lengths.map (fun l => ⌈l / ts⌉) := by
    unfold build_discrete_qubo at hq
    by_cases h1 : task.lengths.isEmpty
    · simp [h1] at hq
    · by_cases h3 : 1 ≤ task.num_machines ∧
          conflictIndexOutOfRange task = true
      · simp [h1, h3.1, h3.2] at hq
      · by_cases h2 : task.num_machines < 1
        · simp [h1, h3, h2] at hq
        · simp only [h1, h3, h2, if_false, if_true, Except.ok.injEq] at hq
          cases hq
          rfl
  rw [hdl]
  have hmap : (task.lengths.map (fun l => ⌈l / ts⌉)).getD i 0
      = ⌈task.lengths.getD i 0 / ts⌉ := by
    rw [List.getD_eq_getElem?_getD, List.getD_eq_getElem?_getD,
      List.getElem?_map, List.getElem?_eq_getElem hi]
    rfl
  rw [hmap]
  exact (div_le_iff₀ hts).mp (Int.le_ceil _)

/-- C8 witness: the task with one machine and the single length 3,
discretized with time step 2, yields discrete length 2 and
`3 ≤ 2 * 2`. -/
theorem discrete_lengths_never_underestimate_witness :
    (⟨1, [3], [[0]]⟩ : TransactionScheduleTask).lengths.getD 0 0 ≤
      (((⟨[2], 2, [0], [["1-1-0"]], [], [],
          [("1-1-0", 1/2)]⟩ : DiscreteQubo).discrete_lengths.getD 0 0 : ℚ))
        * 2 :=
  discrete_lengths_never_underestimate ⟨1, [3], [[0]]⟩ 2 (by norm_num)
    ⟨[2], 2, [0], [["1-1-0"]], [], [], [("1-1-0", 1/2)]⟩ (by decide) 0
    (by decide)

/-- C10: the makespan accessor is only defined on schedules containing at
least one timed transaction: it then returns the maximum end time over all
timed transactions on all tracks, while for a schedule whose tracks are all
empty the computation fails (`max` of an empty list), modelled as
`none`. -/
theorem length_only_defined_when_nonempty (s : Solution) :
    ((∀ m ∈ s.machines, m.transactions = []) → s.length? = none) ∧
    (∀ m₀ ∈ s.machines, ∀ t₀ ∈ m₀.transactions, ∃ v, s.length? = some v ∧
      (∃ m ∈ s.machines, ∃ t ∈ m.transactions, t.end_time = v) ∧
      (∀ m ∈ s.machines, ∀ t ∈ m.transactions, t.end_time ≤ v)) := by
  unfold Solution.length?
  constructor
  · intro h
    have he : (s.machines.map (fun m => m.transactions.map
        (fun t => t.end_time))).flatten = [] := by
      simp only [List.flatten_eq_nil_iff]
      intro l hl
      simp only [List.mem_map] at hl
      obtain ⟨m, hm, rfl⟩ := hl
      simp [h m hm]
    rw [he]
    rfl
  · intro m₀ hm₀ t₀ ht₀
    have hmem : t₀.end_time ∈ (s.machines.map (fun m => m.transactions.map
        (fun t => t.end_time))).flatten := by
      simp only [List.mem_flatten, List.mem_map]
      exact ⟨_, ⟨m₀, hm₀, rfl⟩, List.mem_map_of_mem _ ht₀⟩
    have hne : (s.machines.map (fun m => m.transactions.map
        (fun t => t.end_time))).flatten ≠ [] := List.ne_nil_of_mem hmem
    obtain ⟨v, hv⟩ : ∃ v, ((s.machines.map (fun m => m.transactions.map
        (fun t => t.end_time))).flatten).max? = some v := by
      rcases h : ((s.machines.map (fun m => m.transactions.map
          (fun t => t.end_time))).flatten).max? with _ | v
      · exact absurd (List.max?_eq_none_iff.mp h) hne
      · exact ⟨v, h⟩
    have hspec := (List.max?_eq_some_iff (le_refl)
      (fun a b => max_choice a b) (fun _ _ _ => max_le_iff)).mp hv
    refine ⟨v, hv, ?_, ?_⟩
    · have hvmem := hspec.1
      simp only [List.mem_flatten, List.mem_map] at hvmem
      obtain ⟨l, ⟨m, hm, rfl⟩, hvl⟩ := hvmem
      obtain ⟨t, ht, rfl⟩ := List.mem_map.mp hvl
      exact ⟨m, hm, t, ht, rfl⟩
    · intro m hm t ht
      refine hspec.2 _ ?_
      simp only [List.mem_flatten, List.mem_map]
      exact ⟨_, ⟨m, hm, rfl⟩, List.mem_map_of_mem _ ht⟩

/-- C10 witness: the all-empty two-track schedule has no makespan, and the
two-track schedule with end times 3, 2, 6 has makespan 6. -/
theorem length_only_defined_when_nonempty_witness :
    Solution.length? ⟨[⟨[]⟩, ⟨[]⟩]⟩ = none ∧
    (∃ v, Solution.length?
        ⟨[⟨[⟨0, 0, 3, 3⟩]⟩, ⟨[⟨1, 0, 2, 2⟩, ⟨2, 2, 6, 4⟩]⟩]⟩ = some v ∧
      (∃ m ∈ (⟨[⟨[⟨0, 0, 3, 3⟩]⟩, ⟨[⟨1, 0, 2, 2⟩, ⟨2, 2, 6, 4⟩]⟩]⟩ :
          Solution).machines, ∃ t ∈ m.transactions, t.end_time = v) ∧
      (∀ m ∈ (⟨[⟨[⟨0, 0, 3, 3⟩]⟩, ⟨[⟨1, 0, 2, 2⟩, ⟨2, 2, 6, 4⟩]⟩]⟩ :
          Solution).machines, ∀ t ∈ m.transactions, t.end_time ≤ v)) :=
  ⟨(length_only_defined_when_nonempty ⟨[⟨[]⟩, ⟨[]⟩]⟩).1 (by decide),
   (length_only_defined_when_nonempty
      ⟨[⟨[⟨0, 0, 3, 3⟩]⟩, ⟨[⟨1, 0, 2, 2⟩, ⟨2, 2, 6, 4⟩]⟩]⟩).2
     ⟨[⟨0, 0, 3, 3⟩]⟩ (by decide) ⟨0, 0, 3, 3⟩ (by decide)⟩

lemma pushEarliest_le (cf : List (List ℤ)) (tid : ℕ) (d e : ℚ)
    (omt : TransactionSolution) : e ≤ pushEarliest cf tid d e omt := by
  unfold pushEarliest
  split
  · exact le_max_right _ _
  · exact le_refl _

lemma foldl_pushEarliest_le (cf : List (List ℤ)) (tid : ℕ) (d : ℚ)
    (l : List TransactionSolution) (e : ℚ) :
    e ≤ l.foldl (pushEarliest cf tid d) e := by
  induction l generalizing e with
  | nil => exact le_refl _
  | cons x xs ih =>
    exact le_trans (pushEarliest_le cf tid d e x) (ih _)

lemma earliestPossible_ge (others : List MachineSolution) (tid : ℕ) (d : ℚ)
    (cf : List (List ℤ)) (init : ℚ) :
    init ≤ earliestPossible others tid d cf init := by
  unfold earliestPossible
  induction others generalizing init with
  | nil => exact le_refl _
  | cons m ms ih =>
    exact le_trans (foldl_pushEarliest_le cf tid d m.transactions init) (ih _)

lemma getD_nonneg_of_forall (l : List ℚ) (h : ∀ x ∈ l, 0 ≤ x) (i : ℕ) :
    0 ≤ l.getD i 0 := by
  by_cases hi : i < l.length
  · rw [List.getD_eq_getElem _ _ hi]
    exact h _ (l.getElem_mem hi)
  · rw [List.getD_eq_default _ _ (le_of_not_lt hi)]

lemma trackOk_append (l : List TransactionSolution) (x : TransactionSolution)
    (hpair : l.Pairwise (fun a b => a.end_time ≤ b.start_time))
    (hbound : ∀ a ∈ l, a.end_time ≤ MachineSolution.processing_time ⟨l⟩)
    (hstart : MachineSolution.processing_time ⟨l⟩ ≤ x.start_time)
    (hx : x.start_time ≤ x.end_time) :
    (l ++ [x]).Pairwise (fun a b => a.end_time ≤ b.start_time) ∧
    ∀ a ∈ l ++ [x],
      a.end_time ≤ MachineSolution.processing_time ⟨l ++ [x]⟩ := by
  have hproc : MachineSolution.processing_time ⟨l ++ [x]⟩ = x.end_time := by
    unfold MachineSolution.processing_time
    simp [List.getLast?_concat]
  constructor
  · rw [List.pairwise_append]
    refine ⟨hpair, List.pairwise_singleton _ _, ?_⟩
    intro a ha b hb
    rw [List.mem_singleton] at hb
    subst hb
    exact le_trans (hbound a ha) hstart
  · intro a ha
    rw [hproc]
    rcases List.mem_append.mp ha with h' | h'
    · exact le_trans (hbound a h') (le_trans hstart hx)
    · rw [List.mem_singleton] at h'
      subst h'
      exact le_refl _

lemma scheduleStep_preserves (task : TransactionScheduleTask)
    (hlen : ∀ x ∈ task.lengths, 0 ≤ x) (S : List MachineSolution) (t : ℕ)
    (hS : ∀ m ∈ S,
      m.transactions.Pairwise (fun a b => a.end_time ≤ b.start_time) ∧
      ∀ a ∈ m.transactions, a.end_time ≤ m.processing_time) :
    ∀ m ∈ scheduleStep task S t,
      m.transactions.Pairwise (fun a b => a.end_time ≤ b.start_time) ∧
      ∀ a ∈ m.transactions, a.end_time ≤ m.processing_time := by
  intro m hm
  unfold scheduleStep at hm
  rcases List.mem_or_eq_of_mem_set hm with h' | h'
  · exact hS m h'
  · subst h'
    have hmachine :
        (S.getD (idxMin (S.map MachineSolution.processing_time)) default
          ).transactions.Pairwise (fun a b => a.end_time ≤ b.start_time) ∧
        ∀ a ∈ (S.getD (idxMin (S.map MachineSolution.processing_time))
            default).transactions,
          a.end_time ≤ (S.getD (idxMin (S.map MachineSolution.processing_time))
            default).processing_time := by
      by_cases hi : idxMin (S.map MachineSolution.processing_time) < S.length
      · rw [List.getD_eq_getElem _ _ hi]
        exact hS _ (S.getElem_mem hi)
      · rw [List.getD_eq_default _ _ (le_of_not_lt hi)]
        exact ⟨List.Pairwise.nil, fun a ha => (List.not_mem_nil a ha).elim⟩
    unfold build_transaction_solution
    have hd : 0 ≤ task.lengths.getD t 0 := getD_nonneg_of_forall _ hlen t
    have he := earliestPossible_ge
      (S.eraseIdx (idxMin (S.map MachineSolution.processing_time))) t
      (task.lengths.getD t 0) task.conflicts
      (S.getD (idxMin (S.map MachineSolution.processing_time))
        default).processing_time
    refine trackOk_append _ _ hmachine.1 hmachine.2 he ?_
    show earliestPossible _ _ _ _ _ ≤ earliestPossible _ _ _ _ _ + task.lengths.getD t 0
    exact le_add_of_nonneg_right hd

lemma schedule_tracks_ok (task : TransactionScheduleTask)
    (hlen : ∀ x ∈ task.lengths, 0 ≤ x) :
    ∀ (order : List ℕ) (S : List MachineSolution),
      (∀ m ∈ S,
        m.transactions.Pairwise (fun a b => a.end_time ≤ b.start_time) ∧
        ∀ a ∈ m.transactions, a.end_time ≤ m.processing_time) →
      ∀ m ∈ order.foldl (scheduleStep task) S,
        m.transactions.Pairwise (fun a b => a.end_time ≤ b.start_time) ∧
        ∀ a ∈ m.transactions, a.end_time ≤ m.processing_time := by
  intro order
  induction order with
  | nil => intro S hS; exact hS
  | cons t rest ih =>
    intro S hS
    exact ih _ (scheduleStep_preserves task hlen S t hS)

/-- C6: in the schedule produced by any processing order on a task with
non-negative lengths (the spec's data model, section 3, fixes lengths as
non-negative), no two timed transactions on the same machine track have
overlapping `[start, end)` windows; equivalently every transaction appended
to a track starts no earlier than the end time of the track's previous last
transaction (the `Pairwise` form subsumes the adjacent case). -/
theorem same_track_windows_never_overlap (task : TransactionScheduleTask)
    (hlen : ∀ x ∈ task.lengths, 0 ≤ x) (order : List ℕ) :
    ∀ m ∈ (solution_order_to_solution task order).machines,
      m.transactions.Pairwise (fun a b => a.end_time ≤ b.start_time) ∧
      m.transactions.Pairwise (fun a b => ¬ windowsOverlap a b) := by
  intro m hm
  have hInv := schedule_tracks_ok task hlen order
    (List.replicate task.num_machines ⟨[]⟩)
    (by
      intro m' hm'
      rw [List.eq_of_mem_replicate hm']
      exact ⟨List.Pairwise.nil, fun a ha => (List.not_mem_nil a ha).elim⟩)
    m hm
  refine ⟨hInv.1, hInv.1.imp ?_⟩
  intro a b hab
  unfold windowsOverlap
  exact not_lt.mpr (le_trans (min_le_left _ _)
    (le_trans hab (le_max_right _ _)))

/-- C6 witness: the spec's concrete scenario (2 machines, lengths
`[3, 2, 4]`, no conflicts, order `[0, 1, 2]`) yields track 1 holding
transactions 1 at `[0, 2)` and 2 at `[2, 6)`, which are sorted and
non-overlapping. -/
theorem same_track_windows_never_overlap_witness :
    ((⟨[⟨1, 0, 2, 2⟩, ⟨2, 2, 6, 4⟩]⟩ : MachineSolution)
        ).transactions.Pairwise (fun a b => a.end_time ≤ b.start_time) ∧
    ((⟨[⟨1, 0, 2, 2⟩, ⟨2, 2, 6, 4⟩]⟩ : MachineSolution)
        ).transactions.Pairwise (fun a b => ¬ windowsOverlap a b) :=
  same_track_windows_never_overlap
    ⟨2, [3, 2, 4], [[0, 0, 0], [0, 0, 0], [0, 0, 0]]⟩ (by decide) [0, 1, 2]
    ⟨[⟨1, 0, 2, 2⟩, ⟨2, 2, 6, 4⟩]⟩ (by decide)

lemma idxMin_lt_length : ∀ (l : List ℚ), l ≠ [] → idxMin l < l.length := by
  intro l
  induction l with
  | nil => intro h; exact absurd rfl h
  | cons x xs ih =>
    intro _
    unfold idxMin
    cases xs with
    | nil => simp
    | cons y tl =>
      simp only
      split
      · exact Nat.succ_lt_succ (ih (by simp))
      · simp

lemma idxMin_first : ∀ (l : List ℚ) (k : ℕ), k < idxMin l →
    l.getD (idxMin l) 0 < l.getD k 0 := by
  intro l
  induction l with
  | nil => intro k hk; simp [idxMin] at hk
  | cons x xs ih =>
    intro k hk
    unfold idxMin at hk ⊢
    cases xs with
    | nil => simp at hk
    | cons y tl =>
      simp only at hk ⊢
      split at hk
      case isTrue h =>
        simp only [if_pos h]
        cases k with
        | zero => simpa using h
        | succ k' =>
          have := ih k' (Nat.lt_of_succ_lt_succ hk)
          simpa using this
      case isFalse h => simp at hk

lemma getD_set_eq {α : Type} (l : List α) (i : ℕ) (v d : α)
    (h : i < l.length) : (l.set i v).getD i d = v := by
  induction l generalizing i with
  | nil => simp at h
  | cons x xs ih =>
    cases i with
    | zero => rfl
    | succ i' => exact ih i' (Nat.lt_of_succ_lt_succ h)

lemma getD_set_ne {α : Type} (l : List α) (i j : ℕ) (v d : α)
    (h : j ≠ i) : (l.set i v).getD j d = l.getD j d := by
  induction l generalizing i j with
  | nil => rfl
  | cons x xs ih =>
    cases i with
    | zero =>
      cases j with
      | zero => exact absurd rfl h
      | succ j' => rfl
    | succ i' =>
      cases j with
      | zero => rfl
      | succ j' => exact ih i' j' (fun hc => h (by rw [hc]))

lemma getD_map_proc (S : List MachineSolution) (k : ℕ) :
    (S.map MachineSolution.processing_time).getD k 0 =
      (S.getD k default).processing_time := by
  induction S generalizing k with
  | nil => cases k <;> rfl
  | cons m ms ih =>
    cases k with
    | zero => rfl
    | succ k' => exact ih k'

lemma getD_map_len (S : List MachineSolution) (k : ℕ) :
    (S.map (fun m => m.transactions.length)).getD k 0 =
      (S.getD k default).transactions.length := by
  induction S generalizing k with
  | nil => cases k <;> rfl
  | cons m ms ih =>
    cases k with
    | zero => rfl
    | succ k' => exact ih k'

lemma idxOfFirstEq_getD (S : List MachineSolution) (p : ℕ)
    (hp : p < S.length)
    (hne : ∀ k < p, S.getD k default ≠ S.getD p default) :
    idxOfFirstEq S (S.getD p default) = p := by
  induction S generalizing p with
  | nil => simp at hp
  | cons x xs ih =>
    cases p with
    | zero => simp [idxOfFirstEq]
    | succ p' =>
      have hx : x ≠ (x :: xs).getD (p' + 1) default := hne 0 (Nat.succ_pos _)
      unfold idxOfFirstEq
      rw [if_neg hx]
      have := ih p' (Nat.lt_of_succ_lt_succ hp)
        (fun k hk => hne (k + 1) (Nat.succ_lt_succ hk))
      simpa using this

lemma idxOfFirstEq_idxMin (S : List MachineSolution) (hS : S ≠ []) :
    idxOfFirstEq S
        (S.getD (idxMin (S.map MachineSolution.processing_time)) default)
      = idxMin (S.map MachineSolution.processing_time) := by
  have hmapne : S.map MachineSolution.processing_time ≠ [] := by
    simpa using hS
  have hp : idxMin (S.map MachineSolution.processing_time) < S.length := by
    have := idxMin_lt_length _ hmapne
    simpa using this
  refine idxOfFirstEq_getD S _ hp ?_
  intro k hk hc
  have hlt := idxMin_first (S.map MachineSolution.processing_time) k hk
  rw [getD_map_proc, getD_map_proc] at hlt
  rw [hc] at hlt
  exact lt_irrefl _ hlt



lemma scheduleStep_length (task : TransactionScheduleTask)
    (S : List MachineSolution) (t : ℕ) :
    (scheduleStep task S t).length = S.length := by
  unfold scheduleStep
  exact List.length_set _ _ _

lemma foldl_scheduleStep_length (task : TransactionScheduleTask) :
    ∀ (order : List ℕ) (S : List MachineSolution),
      (order.foldl (scheduleStep task) S).length = S.length := by
  intro order
  induction order with
  | nil => intro S; rfl
  | cons t rest ih =>
    intro S
    rw [List.foldl_cons, ih, scheduleStep_length]

lemma idxMin_proc_lt (S : List MachineSolution) (h : 0 < S.length) :
    idxMin (S.map MachineSolution.processing_time) < S.length := by
  have : S.map MachineSolution.processing_time ≠ [] := by
    intro hc
    rw [List.map_eq_nil_iff] at hc
    subst hc
    simp at h
  have := idxMin_lt_length _ this
  simpa using this

lemma scheduleStep_getD_grows (task : TransactionScheduleTask)
    (S : List MachineSolution) (h : 0 < S.length) (t j : ℕ) :
    (S.getD j default).transactions <+:
      ((scheduleStep task S t).getD j default).transactions := by
  unfold scheduleStep
  by_cases hj : j = idxMin (S.map MachineSolution.processing_time)
  · subst hj
    rw [getD_set_eq _ _ _ _ (idxMin_proc_lt S h)]
    exact List.prefix_append _ _
  · rw [getD_set_ne _ _ _ _ _ hj]

lemma foldl_scheduleStep_getD_grows (task : TransactionScheduleTask) :
    ∀ (rest : List ℕ) (S : List MachineSolution), 0 < S.length → ∀ j,
      (S.getD j default).transactions <+:
        ((rest.foldl (scheduleStep task) S).getD j default).transactions := by
  intro rest
  induction rest with
  | nil => intro S _ j; exact List.prefix_rfl
  | cons t rest' ih =>
    intro S hS j
    rw [List.foldl_cons]
    exact (scheduleStep_getD_grows task S hS t j).trans
      (ih _ (by rw [scheduleStep_length]; exact hS) j)

lemma sumLen_set_append (S : List MachineSolution) (i : ℕ)
    (tx : TransactionSolution) (h : i < S.length) :
    ((S.set i ⟨(S.getD i default).transactions ++ [tx]⟩).map
        (fun m => m.transactions.length)).sum =
      (S.map (fun m => m.transactions.length)).sum + 1 := by
  induction S generalizing i with
  | nil => simp at h
  | cons x xs ih =>
    cases i with
    | zero => simp [List.set]; ring
    | succ i' =>
      simp only [List.set, List.map_cons, List.sum_cons, List.getD_cons_succ]
      rw [ih i' (Nat.lt_of_succ_lt_succ h)]
      ring

lemma sumLen_scheduleStep (task : TransactionScheduleTask)
    (S : List MachineSolution) (t : ℕ) (h : 0 < S.length) :
    ((scheduleStep task S t).map (fun m => m.transactions.length)).sum =
      (S.map (fun m => m.transactions.length)).sum + 1 := by
  unfold scheduleStep build_transaction_solution
  exact sumLen_set_append S _ _ (idxMin_proc_lt S h)

lemma sumLen_foldl_scheduleStep (task : TransactionScheduleTask) :
    ∀ (order : List ℕ) (S : List MachineSolution), 0 < S.length →
      ((order.foldl (scheduleStep task) S).map
          (fun m => m.transactions.length)).sum =
        (S.map (fun m => m.transactions.length)).sum + order.length := by
  intro order
  induction order with
  | nil => intro S _; simp
  | cons t rest ih =>
    intro S hS
    rw [List.foldl_cons, ih _ (by rw [scheduleStep_length]; exact hS),
      sumLen_scheduleStep task S t hS]
    simp [List.length_cons]
    ring



lemma getD_append_len (l r : List TransactionSolution)
    (tx : TransactionSolution) :
    (l ++ tx :: r).getD l.length default = tx := by
  induction l with
  | nil => rfl
  | cons x xs ih => simpa using ih

lemma map_set_len (S : List MachineSolution) (i : ℕ) (v : MachineSolution) :
    (S.set i v).map (fun m => m.transactions.length) =
      (S.map (fun m => m.transactions.length)).set i
        v.transactions.length := by
  induction S generalizing i with
  | nil => rfl
  | cons x xs ih =>
    cases i with
    | zero => rfl
    | succ i' => simp [ih i']

lemma replayStep_def (orig P : List MachineSolution) (tr acc : List ℕ) :
    replayStep orig ⟨P, tr, acc⟩ =
      ⟨P.set (idxMin (P.map MachineSolution.processing_time))
         ⟨(P.getD (idxMin (P.map MachineSolution.processing_time))
             default).transactions ++
           [((orig.getD (idxOfFirstEq P (P.getD (idxMin
               (P.map MachineSolution.processing_time)) default)) default
             ).transactions).getD
             (tr.getD (idxOfFirstEq P (P.getD (idxMin
               (P.map MachineSolution.processing_time)) default)) 0)
             default]⟩,
       tr.set (idxOfFirstEq P (P.getD (idxMin
           (P.map MachineSolution.processing_time)) default))
         (tr.getD (idxOfFirstEq P (P.getD (idxMin
             (P.map MachineSolution.processing_time)) default)) 0 + 1),
       acc ++ [(((orig.getD (idxOfFirstEq P (P.getD (idxMin
           (P.map MachineSolution.processing_time)) default)) default
         ).transactions).getD
           (tr.getD (idxOfFirstEq P (P.getD (idxMin
             (P.map MachineSolution.processing_time)) default)) 0)
           default).id]⟩ := rfl



lemma replay_step_eq (task : TransactionScheduleTask)
    (hm : 0 < task.num_machines) (order pre suf : List ℕ) (t : ℕ)
    (horder : order = pre ++ t :: suf) :
    replayStep
        (order.foldl (scheduleStep task)
          (List.replicate task.num_machines ⟨[]⟩))
        ⟨pre.foldl (scheduleStep task)
           (List.replicate task.num_machines ⟨[]⟩),
         (pre.foldl (scheduleStep task)
            (List.replicate task.num_machines ⟨[]⟩)).map
           (fun m => m.transactions.length),
         pre⟩
      = ⟨(pre ++ [t]).foldl (scheduleStep task)
           (List.replicate task.num_machines ⟨[]⟩),
         ((pre ++ [t]).foldl (scheduleStep task)
            (List.replicate task.num_machines ⟨[]⟩)).map
           (fun m => m.transactions.length),
         pre ++ [t]⟩ := by
  have hSlen : (pre.foldl (scheduleStep task)
      (List.replicate task.num_machines ⟨[]⟩)).length
      = task.num_machines := by
    rw [foldl_scheduleStep_length]
    exact List.length_replicate _ _
  set S := pre.foldl (scheduleStep task)
    (List.replicate task.num_machines ⟨[]⟩) with hSdef
  have hSpos : 0 < S.length := by rw [hSlen]; exact hm
  have hSne : S ≠ [] := List.ne_nil_of_length_pos hSpos
  have hilt : idxMin (S.map MachineSolution.processing_time) < S.length :=
    idxMin_proc_lt S hSpos
  set i := idxMin (S.map MachineSolution.processing_time) with hidef
  set d := task.lengths.getD t 0 with hddef
  set e := earliestPossible (S.eraseIdx i) t d task.conflicts
    ((S.getD i default).processing_time) with hedef
  -- the transaction placed by this step
  set txStep : TransactionSolution := ⟨t, e, e + d, d⟩ with htxdef
  have hstep : scheduleStep task S t =
      S.set i ⟨(S.getD i default).transactions ++ [txStep]⟩ := rfl
  have hfoldstep : (pre ++ [t]).foldl (scheduleStep task)
      (List.replicate task.num_machines ⟨[]⟩)
      = scheduleStep task S t := by
    rw [List.foldl_append, ← hSdef]
    rfl
  have hF : order.foldl (scheduleStep task)
      (List.replicate task.num_machines ⟨[]⟩)
      = suf.foldl (scheduleStep task) (scheduleStep task S t) := by
    rw [horder, List.foldl_append, ← hSdef]
    rfl
  have hmid : idxOfFirstEq S (S.getD i default) = i :=
    idxOfFirstEq_idxMin S hSne
  have htidx : (S.map (fun m => m.transactions.length)).getD i 0
      = (S.getD i default).transactions.length := getD_map_len S i
  have htx : ((order.foldl (scheduleStep task)
        (List.replicate task.num_machines ⟨[]⟩)).getD i
          default).transactions.getD
        ((S.getD i default).transactions.length) default = txStep := by
    rw [hF]
    obtain ⟨r, hr⟩ := foldl_scheduleStep_getD_grows task suf
      (scheduleStep task S t)
      (by rw [scheduleStep_length]; exact hSpos) i
    rw [← hr, hstep, getD_set_eq _ _ _ _ hilt]
    show ((((S.getD i default).transactions ++ [txStep]) ++ r).getD
      (S.getD i default).transactions.length default) = txStep
    rw [List.append_assoc, List.singleton_append, getD_append_len]
  rw [replayStep_def, hmid, htidx, htx]
  refine congrArg₂ (fun a b => ReplayState.mk a b (pre ++ [t])) ?_ ?_
  · rw [hfoldstep, hstep]
  · rw [hfoldstep, hstep, map_set_len, List.length_append]
    rfl



lemma replay_aux (task : TransactionScheduleTask)
    (hm : 0 < task.num_machines) (order : List ℕ) :
    ∀ (suf pre : List ℕ), order = pre ++ suf →
      Nat.iterate
          (replayStep (order.foldl (scheduleStep task)
            (List.replicate task.num_machines ⟨[]⟩)))
          suf.length
          ⟨pre.foldl (scheduleStep task)
             (List.replicate task.num_machines ⟨[]⟩),
           (pre.foldl (scheduleStep task)
              (List.replicate task.num_machines ⟨[]⟩)).map
             (fun m => m.transactions.length),
           pre⟩
        = ⟨order.foldl (scheduleStep task)
             (List.replicate task.num_machines ⟨[]⟩),
           (order.foldl (scheduleStep task)
              (List.replicate task.num_machines ⟨[]⟩)).map
             (fun m => m.transactions.length),
           order⟩ := by
  intro suf
  induction suf with
  | nil =>
    intro pre h
    rw [List.append_nil] at h
    subst h
    rfl
  | cons t suf' ih =>
    intro pre h
    rw [List.length_cons, Function.iterate_succ_apply,
      replay_step_eq task hm order pre suf' t h]
    exact ih (pre ++ [t]) (by rw [h, List.append_assoc]; rfl)

/-- C4: replaying a built schedule reproduces the processing order.  For
every task with at least one machine and every order of valid transaction
identifiers, `solution_to_solution_order` applied to the schedule built by
`solution_order_to_solution` returns exactly the order.  The claim's extra
hypotheses (distinct non-zero durations, no selection ties) are not needed:
the replay recomputes the same processing times as the construction, and
both resolve ties identically (Python's `min` keeps the first minimum, and
`machines.index` cannot return an earlier value-equal machine because such
a machine would have the same processing time and would itself have been
the first minimum). -/
theorem order_round_trip (task : TransactionScheduleTask) (order : List ℕ)
    (hm : 0 < task.num_machines)
    (_hids : ∀ i ∈ order, i < task.lengths.length) :
    (solution_order_to_solution task order).solution_to_solution_order
      = order := by
  unfold solution_order_to_solution Solution.solution_to_solution_order
  show (Nat.iterate
      (replayStep (order.foldl (scheduleStep task)
        (List.replicate task.num_machines ⟨[]⟩)))
      (((order.foldl (scheduleStep task)
          (List.replicate task.num_machines ⟨[]⟩)).map
        (fun m => m.transactions.length)).sum)
      ⟨List.replicate (order.foldl (scheduleStep task)
          (List.replicate task.num_machines ⟨[]⟩)).length ⟨[]⟩,
       List.replicate (order.foldl (scheduleStep task)
          (List.replicate task.num_machines ⟨[]⟩)).length 0,
       []⟩).order = order
  have hLen : (order.foldl (scheduleStep task)
      (List.replicate task.num_machines ⟨[]⟩)).length
      = task.num_machines := by
    rw [foldl_scheduleStep_length]
    exact List.length_replicate _ _
  have hN : ((order.foldl (scheduleStep task)
      (List.replicate task.num_machines ⟨[]⟩)).map
        (fun m => m.transactions.length)).sum = order.length := by
    rw [sumLen_foldl_scheduleStep task order _
      (by rw [List.length_replicate]; exact hm)]
    simp [List.map_replicate]
  rw [hLen, hN]
  have h0 : List.replicate task.num_machines (0 : ℕ)
      = (List.replicate task.num_machines
          (⟨[]⟩ : MachineSolution)).map (fun m => m.transactions.length) := by
    simp [List.map_replicate]
  have haux := replay_aux task hm order order [] (by simp)
  rw [List.foldl_nil] at haux
  rw [h0, haux]

/-- C4 witness: the well-formed 4-machine task round-trips the order
`[0, 1, 2, 3]`. -/
theorem order_round_trip_witness :
    (solution_order_to_solution taskA
        [0, 1, 2, 3]).solution_to_solution_order = [0, 1, 2, 3] :=
  order_round_trip taskA [0, 1, 2, 3] (by decide) (by decide)

end TSQ
